import Mathlib

/-!
Verification of the pull-request context core of the `ask-plugin` repository.

The two files under scrutiny are `src/helpers/pull-request-fetching.ts`
(paginated comment aggregation, `fetchPullRequestComments`) and
`src/helpers/pull-request-parsing.ts` (`processPullRequestDiff`,
`parsePerFileDiffs`, `isEssentialFile`).  JavaScript strings are modelled as
lists of characters, the pluggable exact tokenizer (`gpt-tokenizer`'s
`encode`) as an arbitrary function `Str → Nat`, and the GraphQL transport as
a function from the query index to either a typed response page or a thrown
exception (`Except Unit`).
-/

namespace AskPlugin

/-- JavaScript strings, modelled as lists of characters.  (JS `.length` and
indexing count UTF-16 code units; every input considered here is within the
basic multilingual plane, where code units and characters coincide.) -/
abbrev Str := List Char

/-- Line terminators of ECMA-262: in a multiline regex `^` matches after any
of these, `$` before any of these, and `.` matches none of them. -/
def lineTerm (c : Char) : Bool :=
  c = '\n' || c = '\r' || c.toNat = 0x2028 || c.toNat = 0x2029

/-- Characters removed by JavaScript `String.prototype.trim`: the WhiteSpace
and LineTerminator productions of ECMA-262. -/
def jsWhitespace (c : Char) : Bool :=
  c = ' ' || c = '\t' || c = '\n' || c = '\x0b' || c = '\x0c' || c = '\r' ||
  c.toNat = 0xa0 || c.toNat = 0x1680 || (0x2000 ≤ c.toNat && c.toNat ≤ 0x200a) ||
  c.toNat = 0x2028 || c.toNat = 0x2029 || c.toNat = 0x202f || c.toNat = 0x205f ||
  c.toNat = 0x3000 || c.toNat = 0xfeff

/-- Remove trailing `jsWhitespace` characters. -/
def rtrim (s : Str) : Str := (s.reverse.dropWhile jsWhitespace).reverse

/-- JavaScript `String.prototype.trim`. -/
def trimChars (s : Str) : Str := rtrim (s.dropWhile jsWhitespace)

/-- Split a string into its lines, each paired with the terminator character
that ends it (`none` for the final line).  These are exactly the candidate
match positions of the multiline-anchored regex in `parsePerFileDiffs`. -/
def toLines : Str → List (Str × Option Char)
  | [] => [([], none)]
  | c :: cs =>
    if lineTerm c then ([], some c) :: toLines cs
    else
      match toLines cs with
      | [] => [([c], none)]
      | (l, t) :: rest => (c :: l, t) :: rest

/-- Reassemble what `toLines` split apart. -/
def joinLines (ls : List (Str × Option Char)) : Str :=
  (ls.map (fun p => p.1 ++ p.2.toList)).flatten

/-- The text captured by the lazy group of `/^diff --git a\/(.*?) b\/.*$/`
inside the line remainder after `diff --git a/`: everything before the first
occurrence of `" b/"`, or `none` when `" b/"` never occurs. -/
def captureBefore : Str → Option Str
  | [] => none
  | c :: cs =>
    if (' ' :: 'b' :: '/' :: []).isPrefixOf (c :: cs) then some []
    else (captureBefore cs).map (fun x => c :: x)

/-- Literal prefix required by the per-file header regex. -/
def headerPrefix : Str := "diff --git a/".toList

/-- Result of running `/^diff --git a\/(.*?) b\/.*$/` against one line:
`some filename` when the line is a per-file diff header, `none` otherwise.
The trailing `.*$` of the pattern is satisfiable on every terminator-free
line, so it imposes no extra condition. -/
def matchLine (l : Str) : Option Str :=
  if headerPrefix.isPrefixOf l then captureBefore (l.drop headerPrefix.length)
  else none

/-- Split the line list at each header line.  Returns the (discarded) lines
that precede the first header, and one group per header consisting of the
header line followed by the lines up to (not including) the next header.
This mirrors the `exec` loop of `parsePerFileDiffs`, where each segment's
raw text runs from its own `match.index` to the next `match.index` (or to
end-of-input for the last segment). -/
def splitGroups :
    List (Str × Option Char) →
      List (Str × Option Char) × List (Str × List (Str × Option Char))
  | [] => ([], [])
  | p :: rest =>
    let (pending, groups) := splitGroups rest
    match matchLine p.1 with
    | some f => ([], (f, p :: pending) :: groups)
    | none => (p :: pending, groups)

/-- One per-file segment of a unified diff, as produced by
`parsePerFileDiffs`: a `{ filename, diffContent }` record. -/
structure FileDiff where
  filename : Str
  diffContent : Str
deriving DecidableEq

/-- Embedding of `parsePerFileDiffs` from `pull-request-parsing.ts`: split a
raw unified diff at the lines matching `/^diff --git a\/(.*?) b\/.*$/gm`;
each segment's content is the slice of the input from its header's start to
the next header's start (end of input for the last), passed through
`String.prototype.trim`. -/
def parsePerFileDiffs (diff : Str) : List FileDiff :=
  ((splitGroups (toLines diff)).2).map (fun g => ⟨g.1, trimChars (joinLines g.2)⟩)

/-- Number of lines of the input matching the per-file header regex. -/
def headerCount (diff : Str) : Nat :=
  ((toLines diff).filter (fun p => (matchLine p.1).isSome)).length

/-- The untrimmed slice of the input that each segment is cut from. -/
def segSlices (diff : Str) : List Str :=
  ((splitGroups (toLines diff)).2).map (fun g => joinLines g.2)

/-- First line of a string (used to state that a segment begins with its own
header line). -/
def firstLine (s : Str) : Str := s.takeWhile (fun c => !lineTerm c)

/-- Structural invariant of `toLines` output: every pair except possibly the
last carries a terminator character. -/
def termsOk : List (Str × Option Char) → Prop
  | [] => True
  | [_] => True
  | p :: q :: rest => p.2.isSome = true ∧ termsOk (q :: rest)

/-- Interleave separator strings with content strings:
`glue [s0, s1, ..., sn] [c1, ..., cn] = s0 ++ c1 ++ s1 ++ ... ++ cn ++ sn`. -/
def glue : List Str → List Str → Str
  | [], _ => []
  | s :: _, [] => s
  | s :: ss, c :: cs => s ++ c ++ glue ss cs

/-- The segments' contents, re-joined in original order with (whitespace)
separators, reconstruct the input byte-for-byte: no non-whitespace character
of the input falls outside the segments.  This is the reconstruction / no
gaps property claimed for the splitter (trimming is only allowed to have
removed whitespace, and nothing else may separate or precede segments). -/
def Reconstructs (contents : List Str) (d : Str) : Prop :=
  ∃ seps : List Str, seps.length = contents.length + 1 ∧
    (∀ s ∈ seps, s.all jsWhitespace = true) ∧ glue seps contents = d

/-- Number of non-whitespace characters of a string. -/
def countNonWs (s : Str) : Nat := (s.filter (fun c => !jsWhitespace c)).length

/-- Lower-case a string (JS `toLowerCase`; all deny-listed suffixes are
ASCII, where it agrees with `Char.toLower`). -/
def lowerStr (s : Str) : Str := s.map Char.toLower

/-- The deny list of `isEssentialFile` in `pull-request-parsing.ts`,
verbatim (including the duplicated `".bak"`). -/
def nonEssentialExtensions : List Str :=
  [".png".toList, ".jpg".toList, ".jpeg".toList, ".gif".toList, ".bmp".toList,
   ".tiff".toList, ".svg".toList, ".ico".toList, ".psd".toList, ".ai".toList,
   ".eps".toList,
   ".mp4".toList, ".avi".toList, ".mov".toList, ".wmv".toList, ".flv".toList,
   ".mkv".toList, ".webm".toList, ".mpeg".toList, ".mpg".toList, ".m4v".toList,
   ".mp3".toList, ".wav".toList, ".flac".toList, ".aac".toList, ".ogg".toList,
   ".wma".toList, ".m4a".toList, ".aiff".toList, ".ape".toList,
   ".pdf".toList, ".doc".toList, ".docx".toList, ".xls".toList, ".xlsx".toList,
   ".ppt".toList, ".pptx".toList, ".odt".toList, ".ods".toList, ".odp".toList,
   ".zip".toList, ".rar".toList, ".7z".toList, ".tar".toList, ".gz".toList,
   ".bz2".toList, ".xz".toList, ".lz".toList, ".z".toList,
   ".exe".toList, ".dll".toList, ".so".toList, ".dylib".toList, ".bin".toList,
   ".class".toList, ".jar".toList, ".war".toList, ".ear".toList, ".msi".toList,
   ".apk".toList, ".ipa".toList,
   ".o".toList, ".obj".toList, ".pyc".toList, ".pyo".toList, ".pyd".toList,
   ".lib".toList, ".a".toList, ".dSYM".toList,
   ".sys".toList, ".tmp".toList, ".bak".toList, ".old".toList, ".swp".toList,
   ".swo".toList, ".lock".toList, ".cfg".toList, ".ini".toList,
   ".db".toList, ".sqlite".toList, ".sqlite3".toList, ".mdb".toList,
   ".accdb".toList, ".dbf".toList, ".frm".toList, ".myd".toList, ".myi".toList,
   ".ttf".toList, ".otf".toList, ".woff".toList, ".woff2".toList, ".eot".toList,
   ".log".toList, ".bak".toList, ".orig".toList, ".sav".toList, ".save".toList,
   ".dump".toList,
   ".crt".toList, ".pem".toList, ".key".toList, ".csr".toList, ".der".toList,
   ".plist".toList, ".mobileprovision".toList, ".icns".toList,
   ".ds_store".toList, "thumbs.db".toList, "desktop.ini".toList,
   ".map".toList, ".min.js".toList, ".d.ts".toList, ".map.js".toList,
   ".map.css".toList, ".bundle.js".toList, ".bundle.css".toList,
   ".bundle.js.map".toList, ".bundle.css.map".toList, ".bundle.min.js".toList]

/-- Embedding of `isEssentialFile`: a file is essential iff its lower-cased
name ends with none of the deny-listed suffixes. -/
def isEssentialFile (filename : Str) : Bool :=
  !(nonEssentialExtensions.any (fun ext => ext.isSuffixOf (lowerStr filename)))

/-- The two fields of the `TokenLimits` record consumed by
`processPullRequestDiff` (the TS type carries further fields that the
function never reads; the spec constrains both fields to be non-negative
integers, hence `Nat`). -/
structure TokenLimits where
  runningTokenCount : Nat
  tokensRemaining : Nat

/-- A candidate file together with its heuristic token estimate. -/
structure EstFile where
  filename : Str
  estimatedTokenCount : Nat
  diffContent : Str
deriving DecidableEq

/-- A provisionally included file together with its exact token count. -/
structure MeasFile where
  filename : Str
  estimatedTokenCount : Nat
  diffContent : Str
  tokenCount : Nat
deriving DecidableEq

/-- `Math.ceil(length / 3.5)`.  Over the naturals,
`⌈n / 3.5⌉ = ⌈2n / 7⌉ = (2n + 6) / 7`; the JS double computation is exact
for every realistic length (the quotient is at least `1/7` away from the
nearest integer unless it is one, and the relative rounding error of the
single division is far smaller). -/
def estTokens (s : Str) : Nat := (2 * s.length + 6) / 7

/-- Comparison used by the `sort` call: ascending estimated token count. -/
def estLE (a b : EstFile) : Prop := a.estimatedTokenCount ≤ b.estimatedTokenCount

instance : DecidableRel estLE := fun a b => Nat.decLe a.estimatedTokenCount b.estimatedTokenCount

instance : IsTotal EstFile estLE := ⟨fun a b => Nat.le_total a.estimatedTokenCount b.estimatedTokenCount⟩

instance : IsTrans EstFile estLE := ⟨fun _ _ _ => Nat.le_trans⟩

/-- Estimate phase of `processPullRequestDiff`: attach
`estimatedTokenCount` to every candidate and sort ascending by it.
`Array.prototype.sort` is stable with comparator `a - b`, and a stable sort
with respect to a total preorder is unique, so it is modelled by
`List.insertionSort` (stable by construction). -/
def sortedEstimates (cands : List FileDiff) : List EstFile :=
  List.insertionSort estLE
    (cands.map (fun f => ⟨f.filename, estTokens f.diffContent, f.diffContent⟩))

/-- The greedy estimate-based accept loop: walk the sorted list keeping a
running total seeded at `runningTokenCount`; a file whose estimate would
push the total past `tokensRemaining` is skipped (the walk continues), an
accepted file adds its estimate to the total. -/
def greedyAccept (tokensRemaining : Nat) : Nat → List EstFile → List EstFile
  | _, [] => []
  | cur, f :: rest =>
    if tokensRemaining < cur + f.estimatedTokenCount then
      greedyAccept tokensRemaining cur rest
    else f :: greedyAccept tokensRemaining (cur + f.estimatedTokenCount) rest

/-- `includedFileDiffs` of the source: the estimate-accepted files, in
estimate-sorted order. -/
def includedFiles (tl : TokenLimits) (cands : List FileDiff) : List EstFile :=
  greedyAccept tl.tokensRemaining tl.runningTokenCount (sortedEstimates cands)

/-- Exact measurement of one provisionally included file (the `encodeAsync`
call; the exact tokenizer is the pluggable parameter `tc`). -/
def measure (tc : Str → Nat) (f : EstFile) : MeasFile :=
  ⟨f.filename, f.estimatedTokenCount, f.diffContent, tc f.diffContent⟩

/-- `accurateFileDiffStats` before eviction: exact counts for every
provisionally included file, order preserved (`Promise.all` keeps order). -/
def measuredFiles (tc : Str → Nat) (tl : TokenLimits) (cands : List FileDiff) :
    List MeasFile :=
  (includedFiles tl cands).map (measure tc)

/-- Sum of the exact token counts of a list of measured files. -/
def sumTok (l : List MeasFile) : Nat := (l.map MeasFile.tokenCount).sum

/-- The eviction loop, on the reversed list: while
`runningTokenCount + Σ tokenCount` exceeds `tokensRemaining` and files
remain, pop the last file (= the head of the reversed list).  The source
tracks `currentTokenCount` incrementally by subtracting each popped file's
count; that running value always equals `running + sumTok remaining`, which
is the form used here. -/
def evictRev (tokensRemaining running : Nat) : List MeasFile → List MeasFile
  | [] => []
  | f :: rest =>
    if tokensRemaining < running + sumTok (f :: rest) then
      evictRev tokensRemaining running rest
    else f :: rest

/-- The eviction loop of `processPullRequestDiff` (pops from the end). -/
def evictLoop (tokensRemaining running : Nat) (l : List MeasFile) : List MeasFile :=
  (evictRev tokensRemaining running l.reverse).reverse

/-- The files surviving both phases, in the order the source holds them
(estimate-sorted order with skips, then a suffix removed by eviction). -/
def survivingFiles (tc : Str → Nat) (tl : TokenLimits) (cands : List FileDiff) :
    List MeasFile :=
  evictLoop tl.tokensRemaining tl.runningTokenCount (measuredFiles tc tl cands)

/-- The `"\n"` separator of the final `join`. -/
def newlineStr : Str := ['\n']

/-- The budget-allocation part of `processPullRequestDiff` (everything after
the essential-file filter), parameterized by the exact tokenizer `tc`:
`none` models the `{ diff: null }` "nothing fits" outcome. -/
def allocateDiff (tc : Str → Nat) (tl : TokenLimits) (cands : List FileDiff) :
    Option Str :=
  if includedFiles tl cands = [] then none
  else if survivingFiles tc tl cands = [] then none
  else some (List.intercalate newlineStr ((survivingFiles tc tl cands).map MeasFile.diffContent))

/-- Embedding of `processPullRequestDiff`: parse the diff into per-file
segments, drop non-essential files, then allocate under the token budget. -/
def processPullRequestDiff (tc : Str → Nat) (diff : Str) (tl : TokenLimits) :
    Option Str :=
  allocateDiff tc tl ((parsePerFileDiffs diff).filter (fun f => isEssentialFile f.filename))

/-- Number of files included in the final result (`0` when the result is the
"nothing fits" outcome). -/
def numIncluded (tc : Str → Nat) (tl : TokenLimits) (cands : List FileDiff) : Nat :=
  (survivingFiles tc tl cands).length

/-- The surviving segments' contents listed in their original relative order
in the candidate list (the order the specification asserts for the output). -/
def originalOrderContents (tc : Str → Nat) (tl : TokenLimits)
    (cands : List FileDiff) : List Str :=
  (cands.filter (fun f => (survivingFiles tc tl cands).any
      (fun m => m.filename == f.filename && m.diffContent == f.diffContent))).map
    FileDiff.diffContent

/-- Author descriptor of a GraphQL comment node (`author.login`,
`author.type = __typename`). -/
structure AuthorNode where
  login : Str
  type : Str
deriving DecidableEq

/-- One comment node of either paginated collection. -/
structure CommentNode where
  id : Str
  body : Str
  author : AuthorNode
deriving DecidableEq

/-- Pagination descriptor of one collection. -/
structure PageInfo where
  hasNextPage : Bool
  endCursor : Option Str
deriving DecidableEq

/-- One review node: only its nested `comments.nodes` are consumed. -/
structure ReviewNode where
  comments : List CommentNode
deriving DecidableEq

/-- One node of `closingIssuesReferences`. -/
structure LinkedIssueNode where
  number : Nat
  url : Str
  body : Str
  repositoryOwnerLogin : Str
  repositoryName : Str
deriving DecidableEq

/-- The fields of one GraphQL response page consumed by
`fetchPullRequestComments` (the `repository.pullRequest` object of
`PullRequestGraphQlResponse`; the unused `body` field is omitted). -/
structure PullRequestPage where
  closingIssuesReferences : List LinkedIssueNode
  reviewsPageInfo : PageInfo
  reviews : List ReviewNode
  commentsPageInfo : PageInfo
  comments : List CommentNode
deriving DecidableEq

/-- The caller-facing normalized comment shape (`SimplifiedComment`). -/
structure SimplifiedUser where
  login : Str
  type : Str
deriving DecidableEq

/-- Normalized caller-facing comment (`SimplifiedComment` of
`github-types`; field set as used in `fetchPullRequestComments`). -/
structure SimplifiedComment where
  body : Str
  user : SimplifiedUser
  id : Str
  org : Str
  repo : Str
  issueUrl : Str
deriving DecidableEq

/-- `PullRequestLinkedIssue` of the source. -/
structure PullRequestLinkedIssue where
  number : Nat
  owner : Str
  repo : Str
  url : Str
  body : Str
deriving DecidableEq

/-- The fields of `FetchParams` consumed by `fetchPullRequestComments`.
`owner` and `repo` are optional in the TS type (hence the `|| ""` defaults
at use sites). -/
structure FetchParams where
  owner : Option Str
  repo : Option Str
  issueNum : Nat

/-- JS `x || ""` for an optional string: `undefined` and `""` both yield
`""`, any other string yields itself. -/
def orEmpty : Option Str → Str
  | none => []
  | some s => s

/-- JS template-literal interpolation of a possibly-undefined string
(`undefined` prints as `"undefined"`). -/
def showParam : Option Str → Str
  | none => "undefined".toList
  | some s => s

/-- The issue URL built for every simplified comment:
`https://github.com/owner/repo/pull/issueNum`. -/
def issueUrlOf (p : FetchParams) : Str :=
  "https://github.com/".toList ++ showParam p.owner ++ "/".toList ++
    showParam p.repo ++ "/pull/".toList ++ (toString p.issueNum).toList

/-- The author type that is filtered out. -/
def botType : Str := "Bot".toList

/-- Normalization of one comment node into a `SimplifiedComment`. -/
def simplify (p : FetchParams) (c : CommentNode) : SimplifiedComment :=
  ⟨c.body, ⟨c.author.login, c.author.type⟩, c.id, orEmpty p.owner,
    orEmpty p.repo, issueUrlOf p⟩

/-- JS falsiness of a `string | null` cursor: `null` and `""` are falsy.
The "only needed once" linked-issue capture tests `!commentsEndCursor &&
!reviewsEndCursor`, i.e. this predicate on both stored cursors. -/
def cursorFalsy : Option Str → Bool
  | none => true
  | some s => s.isEmpty

/-- Conversion of one closing-issue reference into the output shape. -/
def convertIssue (i : LinkedIssueNode) : PullRequestLinkedIssue :=
  ⟨i.number, i.repositoryOwnerLogin, i.repositoryName, i.url, i.body⟩

/-- The mutable locals of the `while` loop of `fetchPullRequestComments`. -/
structure FetchState where
  allComments : List SimplifiedComment
  linkedIssues : List PullRequestLinkedIssue
  hasMoreComments : Bool
  hasMoreReviews : Bool
  commentsEndCursor : Option Str
  reviewsEndCursor : Option Str
  pageCount : Nat
deriving DecidableEq

/-- The non-bot comments contributed by one page, in source order: first the
top-level comment nodes, then every review's nested comment nodes. -/
def pageSurvivors (p : FetchParams) (page : PullRequestPage) :
    List SimplifiedComment :=
  (page.comments.filter (fun c => !(c.author.type == botType))).map (simplify p) ++
    ((page.reviews.map
      (fun r => (r.comments.filter (fun c => !(c.author.type == botType))).map
        (simplify p))).flatten)

/-- One iteration of the loop body after a successful query: filter and
append both node sets, capture linked issues when both stored cursors are
falsy (which holds on the first iteration, where both are `null`), then
update the pagination flags and cursors from the page and count the query. -/
def processPage (p : FetchParams) (page : PullRequestPage) (s : FetchState) :
    FetchState :=
  { allComments := s.allComments ++ pageSurvivors p page
    linkedIssues := s.linkedIssues ++
      (if cursorFalsy s.commentsEndCursor && cursorFalsy s.reviewsEndCursor then
        page.closingIssuesReferences.map convertIssue
      else [])
    hasMoreComments := page.commentsPageInfo.hasNextPage
    hasMoreReviews := page.reviewsPageInfo.hasNextPage
    commentsEndCursor := page.commentsPageInfo.endCursor
    reviewsEndCursor := page.reviewsPageInfo.endCursor
    pageCount := s.pageCount + 1 }

/-- `MAX_PAGES` of the source: the safety ceiling on page fetches. -/
def MAX_PAGES : Nat := 100

/-- The `while (hasMoreComments || hasMoreReviews)` loop.  The transport `t`
maps the query index (`pageCount` at call time) to a response or a thrown
exception; a thrown exception aborts the loop (`Except.error`).  The fuel
argument is `MAX_PAGES - pageCount`, so fuel `0` is exactly the
`pageCount >= MAX_PAGES` safety break, which returns the accumulated state.
The trailing `if` mirrors the early `break` when both collections report no
further page (re-checking the loop condition would do the same). -/
def fetchLoop (t : Nat → Except Unit PullRequestPage) (p : FetchParams) :
    Nat → FetchState → Except Unit FetchState
  | 0, s => .ok s
  | fuel + 1, s =>
    if s.hasMoreComments || s.hasMoreReviews then
      match t s.pageCount with
      | .error e => .error e
      | .ok page =>
        let s1 := processPage p page s
        if s1.hasMoreComments || s1.hasMoreReviews then fetchLoop t p fuel s1
        else .ok s1
    else .ok s

/-- Loop state on entry: empty accumulators, both `hasMore` flags `true`,
both cursors `null`, no queries issued yet. -/
def initialFetchState : FetchState := ⟨[], [], true, true, none, none, 0⟩

/-- The `{ comments, linkedIssues }` record returned to the caller. -/
structure FetchResult where
  comments : List SimplifiedComment
  linkedIssues : List PullRequestLinkedIssue
deriving DecidableEq

/-- Embedding of `fetchPullRequestComments`: run the pagination loop; on an
exception from the transport return empty lists (the `catch` branch) instead
of propagating. -/
def fetchPullRequestComments (t : Nat → Except Unit PullRequestPage)
    (p : FetchParams) : FetchResult :=
  match fetchLoop t p MAX_PAGES initialFetchState with
  | .ok s => ⟨s.allComments, s.linkedIssues⟩
  | .error _ => ⟨[], []⟩

/-- A transport that never throws. -/
def pureT (t : Nat → PullRequestPage) : Nat → Except Unit PullRequestPage :=
  fun n => .ok (t n)

/-! ### Concrete inputs used by witnesses and counterexamples -/

/-- A simple exact tokenizer for concrete runs: one token per character. -/
def tcLen : Str → Nat := fun s => s.length

/-- A budget that everything below fits into. -/
def tlWide : TokenLimits := ⟨0, 1000⟩

/-- Two candidate files whose estimate order (`b.ts` first) differs from
their original order (`a.ts` first). -/
def candTwo : List FileDiff :=
  [⟨"a.ts".toList, "aaaaaaa".toList⟩, ⟨"b.ts".toList, "bbb".toList⟩]

/-- The diff actually produced for `candTwo` under `tcLen`/`tlWide`:
estimate-sorted order, not original order. -/
def outTwo : Str := "bbb\naaaaaaa".toList

/-- One candidate whose `diffContent` is the empty string. -/
def candEmptyContent : List FileDiff := [⟨"a.ts".toList, []⟩]

/-- A diff with one non-header, non-whitespace line before the first
per-file header. -/
def dGap : Str := "X\ndiff --git a/f b/f".toList

/-- A minimal well-formed one-file diff. -/
def dSimple : Str := "diff --git a/f.ts b/f.ts\n+x".toList

/-- The single segment `parsePerFileDiffs` cuts out of `dSimple`. -/
def segSimple : FileDiff :=
  ⟨"f.ts".toList, "diff --git a/f.ts b/f.ts\n+x".toList⟩

/-- Concrete fetch parameters. -/
def pDemo : FetchParams := ⟨some "o".toList, some "r".toList, 5⟩

/-- A human-authored top-level comment node. -/
def userComment : CommentNode :=
  ⟨"c1".toList, "hello".toList, ⟨"alice".toList, "User".toList⟩⟩

/-- A bot-authored top-level comment node. -/
def botComment : CommentNode :=
  ⟨"c2".toList, "beep".toList, ⟨"bot".toList, "Bot".toList⟩⟩

/-- A human-authored review comment node. -/
def reviewComment : CommentNode :=
  ⟨"r1".toList, "rev".toList, ⟨"carol".toList, "User".toList⟩⟩

/-- One closing-issue reference node. -/
def issueNode : LinkedIssueNode :=
  ⟨7, "u".toList, "b".toList, "own".toList, "rep".toList⟩

/-- A single complete page: both collections final, one bot comment to be
filtered out. -/
def pageOnce : PullRequestPage :=
  ⟨[issueNode], ⟨false, none⟩, [⟨[reviewComment]⟩], ⟨false, none⟩,
    [userComment, botComment]⟩

/-- A transport that always answers with `pageOnce`. -/
def tOnce : Nat → PullRequestPage := fun _ => pageOnce

/-- A page reporting a further comments page while returning a `null`
comments cursor (legal for the response type: `endCursor: string | null`). -/
def pageNullCursorMore : PullRequestPage :=
  ⟨[issueNode], ⟨false, none⟩, [], ⟨true, none⟩, []⟩

/-- A final page with `null` cursors. -/
def pageNullCursorDone : PullRequestPage :=
  ⟨[issueNode], ⟨false, none⟩, [], ⟨false, none⟩, []⟩

/-- A transport whose first page asks for another page but returns falsy
(`null`) end cursors for both collections. -/
def tBadCursors : Nat → PullRequestPage :=
  fun n => if n = 0 then pageNullCursorMore else pageNullCursorDone

/-- A final page carrying well-formed (non-null, non-empty) end cursors. -/
def pageGoodCursors : PullRequestPage :=
  ⟨[issueNode], ⟨false, some "rc".toList⟩, [], ⟨false, some "cc".toList⟩, []⟩

/-- A transport that always returns well-formed cursors. -/
def tGoodCursors : Nat → PullRequestPage := fun _ => pageGoodCursors

/-- A transport that throws on every query. -/
def tThrow : Nat → Except Unit PullRequestPage := fun _ => .error ()

/-! ### Lemmas about the greedy estimate-based accept loop -/

theorem greedyAccept_nil (B : Nat) (l : List EstFile) :
    ∀ cur, (∀ f ∈ l, B < cur + f.estimatedTokenCount) →
      greedyAccept B cur l = [] := by
  induction l with
  | nil => intro cur _; rfl
  | cons f rest ih =>
    intro cur h
    have hf := h f (List.mem_cons_self f rest)
    simp only [greedyAccept, if_pos hf]
    exact ih cur (fun g hg => h g (List.mem_cons_of_mem f hg))

theorem greedyAccept_nil_of_lt (B cur : Nat) (l : List EstFile) (h : B < cur) :
    greedyAccept B cur l = [] :=
  greedyAccept_nil B l cur
    (fun f _ => Nat.lt_of_lt_of_le h (Nat.le_add_right cur f.estimatedTokenCount))

theorem sorted_sortedEstimates (cands : List FileDiff) :
    List.Sorted estLE (sortedEstimates cands) :=
  List.sorted_insertionSort estLE _

theorem greedyAccept_mono (B B' : Nat) (hBB : B ≤ B') :
    ∀ (l : List EstFile) (cur : Nat), List.Sorted estLE l →
      greedyAccept B cur l <+: greedyAccept B' cur l := by
  intro l
  induction l with
  | nil => intro cur _; exact List.prefix_refl _
  | cons f rest ih =>
    intro cur hs
    have hrest : List.Sorted estLE rest := hs.of_cons
    have hf : ∀ b ∈ rest, estLE f b := (List.sorted_cons.mp hs).1
    by_cases h1 : B < cur + f.estimatedTokenCount
    · have h0 : greedyAccept B cur (f :: rest) = [] := by
        apply greedyAccept_nil
        intro g hg
        rcases List.mem_cons.mp hg with rfl | hg'
        · exact h1
        · have hle := hf g hg'
          unfold estLE at hle
          omega
      rw [h0]
      exact List.nil_prefix
    · have h1' : ¬ B' < cur + f.estimatedTokenCount := by omega
      simp only [greedyAccept, if_neg h1, if_neg h1']
      rcases ih (cur + f.estimatedTokenCount) hrest with ⟨t, ht⟩
      exact ⟨t, by rw [List.cons_append, ht]⟩

/-! ### Lemmas about the exact-count eviction loop -/

theorem evictRev_suffix (B run : Nat) :
    ∀ l : List MeasFile, evictRev B run l <:+ l := by
  intro l
  induction l with
  | nil => exact List.suffix_refl _
  | cons f rest ih =>
    simp only [evictRev]
    by_cases h1 : B < run + sumTok (f :: rest)
    · rw [if_pos h1]
      exact ih.trans (List.suffix_cons f rest)
    · rw [if_neg h1]

theorem evictRev_fits (B run : Nat) :
    ∀ l : List MeasFile, evictRev B run l ≠ [] →
      run + sumTok (evictRev B run l) ≤ B := by
  intro l
  induction l with
  | nil => intro h; exact absurd rfl h
  | cons f rest ih =>
    simp only [evictRev]
    by_cases h1 : B < run + sumTok (f :: rest)
    · rw [if_pos h1]
      exact ih
    · rw [if_neg h1]
      intro _
      omega

theorem evictRev_max (B run : Nat) :
    ∀ l s : List MeasFile, s <:+ l → run + sumTok s ≤ B →
      s.length ≤ (evictRev B run l).length := by
  intro l
  induction l with
  | nil =>
    intro s hs _
    rw [List.suffix_nil.mp hs]
    exact Nat.le_refl _
  | cons f rest ih =>
    intro s hs hfit
    simp only [evictRev]
    by_cases h1 : B < run + sumTok (f :: rest)
    · rw [if_pos h1]
      rcases List.suffix_cons_iff.mp hs with rfl | hs'
      · omega
      · exact ih s hs' hfit
    · rw [if_neg h1]
      exact hs.length_le

theorem evictRev_length_mono (B B' run : Nat) (hBB : B ≤ B')
    (r r' : List MeasFile) (hrr : r <:+ r') :
    (evictRev B run r).length ≤ (evictRev B' run r').length := by
  by_cases h : evictRev B run r = []
  · simp [h]
  · have hfit := evictRev_fits B run r h
    have hsuf : evictRev B run r <:+ r' := (evictRev_suffix B run r).trans hrr
    exact evictRev_max B' run r' _ hsuf (le_trans hfit hBB)

theorem sumTok_reverse (l : List MeasFile) : sumTok l.reverse = sumTok l := by
  simp [sumTok, List.sum_reverse]

/-! ### Claim C1 -/

/-- C1, counterexample: on two essential candidates whose ascending-estimate
order differs from their original order, the surviving set is non-empty and
yet the returned diff is not the newline-join of the surviving contents in
original relative order (the code joins them in estimate-sorted order). -/
theorem c1_counterexample :
    survivingFiles tcLen tlWide candTwo ≠ [] ∧
      allocateDiff tcLen tlWide candTwo ≠
        some (List.intercalate newlineStr (originalOrderContents tcLen tlWide candTwo)) := by
  constructor
  · decide
  · decide

/-- C1, amended: whenever the surviving set is non-empty, the returned diff
string is the surviving segments' raw `diffContent` joined by a single
newline in the order the allocator holds them — a prefix of the
ascending-estimate sorted order — and not, in general, their original
relative order in the source diff. -/
theorem c1_amended (tc : Str → Nat) (tl : TokenLimits) (cands : List FileDiff)
    (d : Str) (h : allocateDiff tc tl cands = some d) :
    d = List.intercalate newlineStr
        ((survivingFiles tc tl cands).map MeasFile.diffContent) ∧
      survivingFiles tc tl cands <+: measuredFiles tc tl cands := by
  unfold allocateDiff at h
  by_cases h1 : includedFiles tl cands = []
  · simp [h1] at h
  · by_cases h2 : survivingFiles tc tl cands = []
    · simp [h1, h2] at h
    · refine ⟨?_, ?_⟩
      · simp only [if_neg h1, if_neg h2, Option.some.injEq] at h
        exact h.symm
      · have hsuf := evictRev_suffix tl.tokensRemaining tl.runningTokenCount
          (measuredFiles tc tl cands).reverse
        have hrev : (survivingFiles tc tl cands).reverse <:+
            (measuredFiles tc tl cands).reverse := by
          unfold survivingFiles evictLoop
          rw [List.reverse_reverse]
          exact hsuf
        exact List.reverse_suffix.mp hrev

/-- C1, witness for the amended claim at a concrete input. -/
theorem c1_amended_witness :
    allocateDiff tcLen tlWide candTwo = some outTwo ∧
      (outTwo = List.intercalate newlineStr
          ((survivingFiles tcLen tlWide candTwo).map MeasFile.diffContent) ∧
        survivingFiles tcLen tlWide candTwo <+: measuredFiles tcLen tlWide candTwo) :=
  ⟨by decide, c1_amended tcLen tlWide candTwo outTwo (by decide)⟩

/-! ### Claim C3 -/

/-- C3: whenever the allocator returns a diff (not the "nothing fits"
outcome), the running token count plus the exact token counts of all
selected files does not exceed `tokensRemaining`. -/
theorem c3_within_budget (tc : Str → Nat) (tl : TokenLimits)
    (cands : List FileDiff) (d : Str) (h : allocateDiff tc tl cands = some d) :
    tl.runningTokenCount + sumTok (survivingFiles tc tl cands) ≤
      tl.tokensRemaining := by
  unfold allocateDiff at h
  by_cases h1 : includedFiles tl cands = []
  · simp [h1] at h
  · by_cases h2 : survivingFiles tc tl cands = []
    · simp [h1, h2] at h
    · have h3 : evictRev tl.tokensRemaining tl.runningTokenCount
          (measuredFiles tc tl cands).reverse ≠ [] := by
        intro hz
        apply h2
        unfold survivingFiles evictLoop
        rw [hz]
        rfl
      have hfit := evictRev_fits tl.tokensRemaining tl.runningTokenCount _ h3
      unfold survivingFiles evictLoop
      rw [sumTok_reverse]
      exact hfit

/-- C3, witness at a concrete input. -/
theorem c3_within_budget_witness :
    allocateDiff tcLen tlWide candTwo = some outTwo ∧
      tlWide.runningTokenCount + sumTok (survivingFiles tcLen tlWide candTwo) ≤
        tlWide.tokensRemaining :=
  ⟨by decide, c3_within_budget tcLen tlWide candTwo outTwo (by decide)⟩

/-! ### Claim C4 -/

/-- C4: whenever `tokensRemaining < runningTokenCount`, the allocator
returns the "nothing fits" outcome for every candidate list — even a
candidate with empty `diffContent` (estimate `0`) is skipped, because the
running total already exceeds the budget. -/
theorem c4_nothing_fits (tc : Str → Nat) (cands : List FileDiff)
    (run B : Nat) (h : B < run) :
    allocateDiff tc ⟨run, B⟩ cands = none := by
  have h0 : includedFiles ⟨run, B⟩ cands = [] := by
    unfold includedFiles
    exact greedyAccept_nil_of_lt B run (sortedEstimates cands) h
  simp [allocateDiff, h0]

/-- C4, witness: a budget with `tokensRemaining < runningTokenCount` and a
candidate whose `diffContent` is the empty string. -/
theorem c4_nothing_fits_witness :
    3 < 5 ∧ allocateDiff tcLen ⟨5, 3⟩ candEmptyContent = none :=
  ⟨by decide, c4_nothing_fits tcLen candEmptyContent 5 3 (by decide)⟩

/-! ### Claim C5 -/

/-- C5: for a fixed candidate list, running count and exact tokenizer,
increasing `tokensRemaining` never decreases the number of files included
in the final result. -/
theorem c5_budget_monotone (tc : Str → Nat) (cands : List FileDiff)
    (run B B' : Nat) (h : B ≤ B') :
    numIncluded tc ⟨run, B⟩ cands ≤ numIncluded tc ⟨run, B'⟩ cands := by
  unfold numIncluded survivingFiles evictLoop
  rw [List.length_reverse, List.length_reverse]
  apply evictRev_length_mono _ _ _ h
  have hpre : includedFiles ⟨run, B⟩ cands <+: includedFiles ⟨run, B'⟩ cands := by
    unfold includedFiles
    exact greedyAccept_mono B B' h (sortedEstimates cands) run
      (sorted_sortedEstimates cands)
  have hpre2 : measuredFiles tc ⟨run, B⟩ cands <+: measuredFiles tc ⟨run, B'⟩ cands := by
    unfold measuredFiles
    exact hpre.map (measure tc)
  exact List.reverse_suffix.mpr hpre2

/-- C5, witness at a concrete pair of budgets. -/
theorem c5_budget_monotone_witness :
    1 ≤ 1000 ∧ numIncluded tcLen ⟨0, 1⟩ candTwo ≤ numIncluded tcLen ⟨0, 1000⟩ candTwo :=
  ⟨by decide, c5_budget_monotone tcLen candTwo 0 1 1000 (by decide)⟩

/-! ### Lemmas about the line decomposition -/

theorem toLines_ne_nil (d : Str) : toLines d ≠ [] := by
  cases d with
  | nil => simp [toLines]
  | cons c cs =>
    simp only [toLines]
    by_cases h : lineTerm c
    · simp [h]
    · simp only [h]
      cases htl : toLines cs <;> simp

theorem joinLines_cons (p : Str × Option Char) (ls : List (Str × Option Char)) :
    joinLines (p :: ls) = (p.1 ++ p.2.toList) ++ joinLines ls := by
  simp [joinLines]

theorem joinLines_append (a b : List (Str × Option Char)) :
    joinLines (a ++ b) = joinLines a ++ joinLines b := by
  simp [joinLines]

theorem joinLines_toLines (d : Str) : joinLines (toLines d) = d := by
  induction d with
  | nil => rfl
  | cons c cs ih =>
    by_cases h : lineTerm c
    · simp [toLines, h, joinLines_cons, ih]
    · cases htl : toLines cs with
      | nil => exact absurd htl (toLines_ne_nil cs)
      | cons p rest =>
        obtain ⟨l, t⟩ := p
        have hred : toLines (c :: cs) = (c :: l, t) :: rest := by
          simp [toLines, h, htl]
        rw [hred, joinLines_cons]
        have hjoin : joinLines ((l, t) :: rest) = cs := htl ▸ ih
        rw [joinLines_cons] at hjoin
        simp only [List.cons_append, List.append_assoc] at hjoin ⊢
        rw [hjoin]

theorem splitGroups_cons_some (p : Str × Option Char)
    (rest : List (Str × Option Char)) (f : Str) (hm : matchLine p.1 = some f) :
    splitGroups (p :: rest) =
      ([], (f, p :: (splitGroups rest).1) :: (splitGroups rest).2) := by
  simp [splitGroups, hm]

theorem splitGroups_cons_none (p : Str × Option Char)
    (rest : List (Str × Option Char)) (hm : matchLine p.1 = none) :
    splitGroups (p :: rest) = (p :: (splitGroups rest).1, (splitGroups rest).2) := by
  simp [splitGroups, hm]

theorem splitGroups_glue (xs : List (Str × Option Char)) :
    (splitGroups xs).1 ++ ((splitGroups xs).2.map (fun g => g.2)).flatten = xs := by
  induction xs with
  | nil => rfl
  | cons p rest ih =>
    cases hm : matchLine p.1 with
    | some f =>
      rw [splitGroups_cons_some p rest f hm]
      simp only [List.map_cons, List.flatten_cons, List.nil_append, List.cons_append]
      exact congrArg (List.cons p) ih
    | none =>
      rw [splitGroups_cons_none p rest hm]
      simp only [List.cons_append]
      exact congrArg (List.cons p) ih

theorem splitGroups_pre_nomatch (xs : List (Str × Option Char)) :
    ∀ q ∈ (splitGroups xs).1, matchLine q.1 = none := by
  induction xs with
  | nil => intro q hq; simp [splitGroups] at hq
  | cons p rest ih =>
    intro q hq
    cases hm : matchLine p.1 with
    | some f =>
      rw [splitGroups_cons_some p rest f hm] at hq
      simp at hq
    | none =>
      rw [splitGroups_cons_none p rest hm] at hq
      rcases List.mem_cons.mp hq with rfl | hq'
      · exact hm
      · exact ih q hq'

theorem splitGroups_count (xs : List (Str × Option Char)) :
    (splitGroups xs).2.length =
      (xs.filter (fun q => (matchLine q.1).isSome)).length := by
  induction xs with
  | nil => rfl
  | cons p rest ih =>
    cases hm : matchLine p.1 with
    | some f =>
      rw [splitGroups_cons_some p rest f hm]
      simp [List.filter_cons, hm, ih]
    | none =>
      rw [splitGroups_cons_none p rest hm]
      simp [List.filter_cons, hm, ih]

theorem splitGroups_group_head (xs : List (Str × Option Char)) :
    ∀ g ∈ (splitGroups xs).2, ∃ p pending, g.2 = p :: pending ∧
      matchLine p.1 = some g.1 := by
  induction xs with
  | nil => intro g hg; simp [splitGroups] at hg
  | cons p rest ih =>
    intro g hg
    cases hm : matchLine p.1 with
    | some f =>
      rw [splitGroups_cons_some p rest f hm] at hg
      rcases List.mem_cons.mp hg with rfl | hg'
      · exact ⟨p, (splitGroups rest).1, rfl, hm⟩
      · exact ih g hg'
    | none =>
      rw [splitGroups_cons_none p rest hm] at hg
      exact ih g hg

theorem splitGroups_mem (xs : List (Str × Option Char)) :
    (∀ q ∈ (splitGroups xs).1, q ∈ xs) ∧
      (∀ g ∈ (splitGroups xs).2, ∀ q ∈ g.2, q ∈ xs) := by
  induction xs with
  | nil => exact ⟨fun q hq => by simp [splitGroups] at hq,
      fun g hg => by simp [splitGroups] at hg⟩
  | cons p rest ih =>
    cases hm : matchLine p.1 with
    | some f =>
      rw [splitGroups_cons_some p rest f hm]
      refine ⟨fun q hq => by simp at hq, fun g hg q hq => ?_⟩
      rcases List.mem_cons.mp hg with rfl | hg'
      · rcases List.mem_cons.mp hq with rfl | hq'
        · exact List.mem_cons_self _ _
        · exact List.mem_cons_of_mem p (ih.1 q hq')
      · exact List.mem_cons_of_mem p (ih.2 g hg' q hq)
    | none =>
      rw [splitGroups_cons_none p rest hm]
      refine ⟨fun q hq => ?_, fun g hg q hq => List.mem_cons_of_mem p (ih.2 g hg q hq)⟩
      rcases List.mem_cons.mp hq with rfl | hq'
      · exact List.mem_cons_self _ _
      · exact List.mem_cons_of_mem p (ih.1 q hq')

theorem toLines_clean (d : Str) :
    ∀ p ∈ toLines d, p.1.all (fun c => !lineTerm c) = true ∧
      (∀ ch, p.2 = some ch → lineTerm ch = true) := by
  induction d with
  | nil =>
    intro p hp
    simp only [toLines, List.mem_singleton] at hp
    subst hp
    exact ⟨rfl, fun ch hch => by cases hch⟩
  | cons c cs ih =>
    intro p hp
    by_cases h : lineTerm c
    · simp only [toLines, h, if_true] at hp
      rcases List.mem_cons.mp hp with rfl | hp'
      · refine ⟨rfl, fun ch hch => ?_⟩
        injection hch with e
        rw [←e]
        exact h
      · exact ih p hp'
    · cases htl : toLines cs with
      | nil => exact absurd htl (toLines_ne_nil cs)
      | cons q rest =>
        obtain ⟨l, t⟩ := q
        have hred : toLines (c :: cs) = (c :: l, t) :: rest := by
          simp [toLines, h, htl]
        rw [hred] at hp
        have hlt := ih (l, t) (htl ▸ List.mem_cons_self _ _)
        rcases List.mem_cons.mp hp with rfl | hp'
        · refine ⟨?_, hlt.2⟩
          simp only [List.all_cons, h, Bool.not_false, Bool.true_and]
          exact hlt.1
        · exact ih p (htl ▸ List.mem_cons_of_mem _ hp')

/-! ### The terminator invariant of `toLines` -/

theorem termsOk_tail (p : Str × Option Char) (l : List (Str × Option Char)) :
    termsOk (p :: l) → termsOk l := by
  cases l with
  | nil => intro _; trivial
  | cons q r => intro h; exact h.2

theorem termsOk_cons (p : Str × Option Char) (l : List (Str × Option Char))
    (hp : p.2.isSome = true) (hl : termsOk l) : termsOk (p :: l) := by
  cases l with
  | nil => trivial
  | cons q r => exact ⟨hp, hl⟩

theorem termsOk_single (p : Str × Option Char) : termsOk [p] := trivial

theorem termsOk_head (p q : Str × Option Char) (l : List (Str × Option Char)) :
    termsOk (p :: q :: l) → p.2.isSome = true := fun h => h.1

theorem toLines_termsOk (d : Str) : termsOk (toLines d) := by
  induction d with
  | nil => exact termsOk_single _
  | cons c cs ih =>
    by_cases h : lineTerm c
    · have hred : toLines (c :: cs) = ([], some c) :: toLines cs := by
        simp [toLines, h]
      rw [hred]
      exact termsOk_cons _ _ rfl ih
    · cases htl : toLines cs with
      | nil => exact absurd htl (toLines_ne_nil cs)
      | cons q rest =>
        obtain ⟨l, t⟩ := q
        have hred : toLines (c :: cs) = (c :: l, t) :: rest := by
          simp [toLines, h, htl]
        rw [hred]
        have ih' : termsOk ((l, t) :: rest) := htl ▸ ih
        cases rest with
        | nil => exact termsOk_single _
        | cons r rs => exact ⟨ih'.1, ih'.2⟩

theorem splitGroups_termsOk (xs : List (Str × Option Char)) (h : termsOk xs) :
    termsOk (splitGroups xs).1 ∧ ∀ g ∈ (splitGroups xs).2, termsOk g.2 := by
  induction xs with
  | nil =>
    refine ⟨trivial, fun g hg => ?_⟩
    simp [splitGroups] at hg
  | cons p rest ih =>
    have ht := termsOk_tail p rest h
    obtain ⟨ih1, ih2⟩ := ih ht
    have hkey : termsOk (p :: (splitGroups rest).1) := by
      cases hpend : (splitGroups rest).1 with
      | nil => exact termsOk_single p
      | cons q qs =>
        cases rest with
        | nil => simp [splitGroups] at hpend
        | cons r rs =>
          exact termsOk_cons p _ (termsOk_head p r rs h) (hpend ▸ ih1)
    cases hm : matchLine p.1 with
    | some f =>
      rw [splitGroups_cons_some p rest f hm]
      refine ⟨trivial, fun g hg => ?_⟩
      rcases List.mem_cons.mp hg with rfl | hg'
      · exact hkey
      · exact ih2 g hg'
    | none =>
      rw [splitGroups_cons_none p rest hm]
      exact ⟨hkey, ih2⟩

/-! ### Counting non-whitespace characters (for the reconstruction claim) -/

theorem countNonWs_append (a b : Str) :
    countNonWs (a ++ b) = countNonWs a + countNonWs b := by
  simp [countNonWs, List.filter_append]

theorem countNonWs_ws (s : Str) (h : s.all jsWhitespace = true) :
    countNonWs s = 0 := by
  induction s with
  | nil => rfl
  | cons c cs ih =>
    rw [List.all_cons, Bool.and_eq_true] at h
    unfold countNonWs
    rw [List.filter_cons]
    simp only [h.1, Bool.not_true, if_false]
    exact ih h.2

theorem glue_countNonWs :
    ∀ (cs seps : List Str) (d : Str), seps.length = cs.length + 1 →
      (∀ s ∈ seps, s.all jsWhitespace = true) → glue seps cs = d →
      countNonWs d = countNonWs cs.flatten := by
  intro cs
  induction cs with
  | nil =>
    intro seps d hlen hws hg
    cases seps with
    | nil => simp at hlen
    | cons s ss =>
      cases ss with
      | nil =>
        have hd : d = s := hg.symm
        rw [hd]
        rw [countNonWs_ws s (hws s (List.mem_cons_self _ _))]
        rfl
      | cons s2 ss2 => simp at hlen
  | cons c cs' ih =>
    intro seps d hlen hws hg
    cases seps with
    | nil => simp at hlen
    | cons s ss =>
      rw [←hg]
      have hgl : glue (s :: ss) (c :: cs') = s ++ (c ++ glue ss cs') := by
        simp [glue]
      rw [hgl, countNonWs_append, countNonWs_append]
      have h0 : countNonWs s = 0 := countNonWs_ws s (hws s (List.mem_cons_self _ _))
      have hrec := ih ss (glue ss cs') (by simpa using hlen)
        (fun x hx => hws x (List.mem_cons_of_mem _ hx)) rfl
      rw [List.flatten_cons, countNonWs_append, h0, hrec]
      omega

theorem joinLines_flatten (gs : List (List (Str × Option Char))) :
    joinLines gs.flatten = (gs.map joinLines).flatten := by
  induction gs with
  | nil => rfl
  | cons g gs' ih =>
    rw [List.flatten_cons, joinLines_append, List.map_cons, List.flatten_cons, ih]

/-! ### Claim C2 -/

/-- C2, counterexample: on an input with a non-whitespace, non-header line
before the first `diff --git a/` header, the returned segments (although one
per header line) do not cover the entire input — the character `X` of the
leading line belongs to no segment, so no whitespace-separated re-joining of
the segments' contents reconstructs the input byte-for-byte. -/
theorem c2_counterexample :
    ¬ ((parsePerFileDiffs dGap).length = headerCount dGap ∧
        Reconstructs ((parsePerFileDiffs dGap).map FileDiff.diffContent) dGap) := by
  rintro ⟨-, seps, hlen, hws, hglue⟩
  have h := glue_countNonWs ((parsePerFileDiffs dGap).map FileDiff.diffContent)
    seps dGap (by simpa using hlen) hws hglue
  revert h
  decide

/-- C2, amended: `parsePerFileDiffs` returns exactly one segment per header
line; each returned content is the whitespace-trim of its untrimmed slice;
the untrimmed slices tile the input from the first header line to the end of
input with no gaps or overlaps, while everything before the first header
line (exactly the non-header prefix lines) is covered by no segment. -/
theorem c2_amended (d : Str) :
    (parsePerFileDiffs d).length = headerCount d ∧
      (parsePerFileDiffs d).map FileDiff.diffContent = (segSlices d).map trimChars ∧
      joinLines (splitGroups (toLines d)).1 ++ (segSlices d).flatten = d ∧
      ∀ q ∈ (splitGroups (toLines d)).1, matchLine q.1 = none := by
  refine ⟨?_, ?_, ?_, splitGroups_pre_nomatch _⟩
  · unfold parsePerFileDiffs headerCount
    rw [List.length_map]
    exact splitGroups_count _
  · unfold parsePerFileDiffs segSlices
    simp only [List.map_map]
    rfl
  · have hglue := splitGroups_glue (toLines d)
    have hj := congrArg joinLines hglue
    rw [joinLines_append, joinLines_toLines] at hj
    have hseg : (segSlices d).flatten =
        joinLines (((splitGroups (toLines d)).2.map (fun g => g.2)).flatten) := by
      rw [joinLines_flatten, List.map_map]
      rfl
    rw [hseg]
    exact hj

/-- C2, witness: the amended theorem applied to the prefix line of `dGap`. -/
theorem c2_amended_witness :
    (("X".toList, (some '\n' : Option Char)) ∈ (splitGroups (toLines dGap)).1) ∧
      matchLine "X".toList = none :=
  ⟨by decide, (c2_amended dGap).2.2.2 ("X".toList, some '\n') (by decide)⟩

/-! ### Boolean prefix helpers -/

theorem isPrefixOf_exists (p l : Str) (h : p.isPrefixOf l = true) :
    ∃ t, p ++ t = l := by
  induction p generalizing l with
  | nil => exact ⟨l, rfl⟩
  | cons a p' ih =>
    cases l with
    | nil => simp [List.isPrefixOf] at h
    | cons b l' =>
      simp only [List.isPrefixOf, Bool.and_eq_true, beq_iff_eq] at h
      obtain ⟨rfl, h2⟩ := h
      obtain ⟨t, ht⟩ := ih l' h2
      exact ⟨t, by rw [List.cons_append, ht]⟩

theorem isPrefixOf_of_append (p t : Str) : p.isPrefixOf (p ++ t) = true := by
  induction p with
  | nil => simp [List.isPrefixOf]
  | cons a p' ih => simp [List.isPrefixOf, ih]

/-! ### Lemmas about the lazy capture group -/

theorem captureBefore_sound : ∀ (s x : Str), captureBefore s = some x →
    ∃ y, s = x ++ ' ' :: 'b' :: '/' :: y := by
  intro s
  induction s with
  | nil => intro x h; simp [captureBefore] at h
  | cons c cs ih =>
    intro x h
    by_cases hp : (' ' :: 'b' :: '/' :: []).isPrefixOf (c :: cs) = true
    · simp only [captureBefore, if_pos hp, Option.some.injEq] at h
      obtain ⟨y, hy⟩ := isPrefixOf_exists _ _ hp
      refine ⟨y, ?_⟩
      rw [←h, ←hy]
      simp
    · simp only [captureBefore, if_neg hp] at h
      rw [Option.map_eq_some'] at h
      obtain ⟨x', hx', hfx⟩ := h
      obtain ⟨y, hy⟩ := ih x' hx'
      exact ⟨y, by rw [←hfx, hy]; rfl⟩

theorem isPrefixOf_bslash_indep (c : Char) (m y y' : Str) :
    (' ' :: 'b' :: '/' :: []).isPrefixOf (c :: (m ++ ' ' :: 'b' :: '/' :: y)) =
      (' ' :: 'b' :: '/' :: []).isPrefixOf (c :: (m ++ ' ' :: 'b' :: '/' :: y')) := by
  cases m with
  | nil => simp [List.isPrefixOf]
  | cons d m' =>
    cases m' with
    | nil => simp [List.isPrefixOf]
    | cons e m'' => simp [List.isPrefixOf]

theorem captureBefore_indep : ∀ (x y y' : Str),
    captureBefore (x ++ ' ' :: 'b' :: '/' :: y) = some x →
    captureBefore (x ++ ' ' :: 'b' :: '/' :: y') = some x := by
  intro x
  induction x with
  | nil =>
    intro y y' _
    simp [captureBefore, List.isPrefixOf]
  | cons c x' ih =>
    intro y y' h
    simp only [List.cons_append] at h ⊢
    by_cases hp : (' ' :: 'b' :: '/' :: []).isPrefixOf (c :: (x' ++ ' ' :: 'b' :: '/' :: y)) = true
    · simp [captureBefore, hp] at h
    · have hp' : ¬ ((' ' :: 'b' :: '/' :: []).isPrefixOf
          (c :: (x' ++ ' ' :: 'b' :: '/' :: y')) = true) := by
        rw [←isPrefixOf_bslash_indep c x' y y']
        exact hp
      simp only [captureBefore, if_neg hp] at h
      simp only [captureBefore, if_neg hp']
      rw [Option.map_eq_some'] at h
      obtain ⟨x'', hx'', heq⟩ := h
      have hxx : x'' = x' := by
        have := congrArg List.tail heq
        simpa using this
      subst hxx
      rw [ih y y' hx'']
      rfl

/-! ### Lemmas about trailing-whitespace removal -/

theorem rtrim_append (a b : Str) :
    rtrim (a ++ b) = if rtrim b = [] then rtrim a else a ++ rtrim b := by
  unfold rtrim
  rw [List.reverse_append, List.dropWhile_append]
  by_cases h : ((b.reverse.dropWhile jsWhitespace).isEmpty : Prop)
  · rw [if_pos h]
    have hb : (b.reverse.dropWhile jsWhitespace).reverse = [] := by
      rw [List.isEmpty_iff] at h
      rw [h]
      rfl
    rw [if_pos hb]
  · rw [if_neg h]
    have hb : ¬ (b.reverse.dropWhile jsWhitespace).reverse = [] := by
      intro hz
      apply h
      rw [List.isEmpty_iff]
      rw [←List.reverse_reverse (b.reverse.dropWhile jsWhitespace), hz]
      rfl
    rw [if_neg hb]
    rw [List.reverse_append, List.reverse_reverse]

theorem rtrim_last_nonws (a : Str) (c : Char) (h : jsWhitespace c = false) :
    rtrim (a ++ [c]) = a ++ [c] := by
  unfold rtrim
  rw [List.reverse_append]
  simp [List.dropWhile_cons, h]

theorem dropWhile_isSuffix (p : Char → Bool) (l : Str) : l.dropWhile p <:+ l :=
  List.dropWhile_suffix p

theorem rtrim_isPrefix (s : Str) : rtrim s <+: s := by
  have h : (rtrim s).reverse <:+ s.reverse := by
    unfold rtrim
    rw [List.reverse_reverse]
    exact dropWhile_isSuffix jsWhitespace s.reverse
  exact List.reverse_suffix.mp h

theorem trimChars_cons_nonws (c : Char) (s : Str) (h : jsWhitespace c = false) :
    trimChars (c :: s) = rtrim (c :: s) := by
  unfold trimChars
  simp [List.dropWhile_cons, h]

/-! ### The per-file header survives trimming -/

theorem matchLine_isPrefix (l f : Str) (h : matchLine l = some f) :
    headerPrefix.isPrefixOf l = true := by
  unfold matchLine at h
  by_cases hp : headerPrefix.isPrefixOf l = true
  · exact hp
  · rw [if_neg hp] at h
    cases h

theorem matchLine_decompose (l f : Str) (h : matchLine l = some f) :
    ∃ rest, l = headerPrefix ++ rest ∧ captureBefore rest = some f := by
  have hp := matchLine_isPrefix l f h
  obtain ⟨rest, hrest⟩ := isPrefixOf_exists _ _ hp
  refine ⟨rest, hrest.symm, ?_⟩
  unfold matchLine at h
  rw [if_pos hp] at h
  rw [←hrest, List.drop_left] at h
  exact h

theorem rtrim_capture_shape (f y : Str) :
    ∃ y', rtrim (f ++ ' ' :: 'b' :: '/' :: y) = f ++ ' ' :: 'b' :: '/' :: y' := by
  have hassoc : f ++ ' ' :: 'b' :: '/' :: y = (f ++ (' ' :: 'b' :: '/' :: [])) ++ y := by
    simp
  rw [hassoc, rtrim_append]
  by_cases h : rtrim y = []
  · rw [if_pos h]
    have h2 : f ++ (' ' :: 'b' :: '/' :: []) = (f ++ [' ', 'b']) ++ ['/'] := by simp
    rw [h2, rtrim_last_nonws _ '/' (by decide)]
    exact ⟨[], by simp⟩
  · rw [if_neg h]
    exact ⟨rtrim y, by simp⟩

theorem matchLine_rtrim (l f : Str) (h : matchLine l = some f) :
    matchLine (rtrim l) = some f := by
  obtain ⟨rest, rfl, hc⟩ := matchLine_decompose l f h
  obtain ⟨y, rfl⟩ := captureBefore_sound rest f hc
  rw [rtrim_append]
  obtain ⟨y', hy'⟩ := rtrim_capture_shape f y
  have hrr : ¬ rtrim (f ++ ' ' :: 'b' :: '/' :: y) = [] := by
    rw [hy']
    simp
  rw [if_neg hrr]
  unfold matchLine
  rw [if_pos (isPrefixOf_of_append headerPrefix _), List.drop_left, hy']
  exact captureBefore_indep f y y' hc

theorem takeWhile_eq_self_of_all (pred : Char → Bool) (l : Str)
    (h : l.all pred = true) : l.takeWhile pred = l := by
  induction l with
  | nil => rfl
  | cons c cs ih =>
    rw [List.all_cons, Bool.and_eq_true] at h
    simp [List.takeWhile_cons, h.1, ih h.2]

theorem matchLine_rtrim_line (l f : Str)
    (hall : l.all (fun c => !lineTerm c) = true) (hm : matchLine l = some f) :
    headerPrefix.isPrefixOf (rtrim l) = true ∧
      matchLine (firstLine (rtrim l)) = some f := by
  have hmr := matchLine_rtrim l f hm
  have hfl : firstLine (rtrim l) = rtrim l := by
    unfold firstLine
    apply takeWhile_eq_self_of_all
    rw [List.all_eq_true] at hall ⊢
    intro x hx
    exact hall x ((rtrim_isPrefix l).sublist.subset hx)
  exact ⟨matchLine_isPrefix _ _ hmr, by rw [hfl]; exact hmr⟩

theorem trimChars_headercons (l X f : Str) (hm : matchLine l = some f) :
    trimChars (l ++ X) = rtrim (l ++ X) := by
  obtain ⟨rest0, rfl, -⟩ := matchLine_decompose l f hm
  have hd : headerPrefix = 'd' :: "iff --git a/".toList := by decide
  rw [hd, List.cons_append, List.cons_append]
  exact trimChars_cons_nonws 'd' _ (by decide)

/-! ### Claim C10 -/

/-- C10: every segment returned by `parsePerFileDiffs` with non-empty
content begins with the `diff --git a/` header line it was split at, and
the pre-image path captured from that first line is exactly the segment's
`filename` — splitting never detaches a file's content from its own header
line. -/
theorem c10_segment_header (d : Str) (seg : FileDiff)
    (hmem : seg ∈ parsePerFileDiffs d) (hne : seg.diffContent ≠ []) :
    headerPrefix.isPrefixOf seg.diffContent = true ∧
      matchLine (firstLine seg.diffContent) = some seg.filename := by
  unfold parsePerFileDiffs at hmem
  rw [List.mem_map] at hmem
  obtain ⟨g, hg, hseg⟩ := hmem
  obtain ⟨p, pending, hg2, hmatch⟩ := splitGroups_group_head (toLines d) g hg
  have hmem_p : p ∈ toLines d :=
    (splitGroups_mem (toLines d)).2 g hg p (hg2 ▸ List.mem_cons_self _ _)
  have hclean := toLines_clean d p hmem_p
  have htok : termsOk g.2 :=
    (splitGroups_termsOk (toLines d) (toLines_termsOk d)).2 g hg
  subst hseg
  simp only
  have hjoin : joinLines g.2 = p.1 ++ (p.2.toList ++ joinLines pending) := by
    rw [hg2, joinLines_cons, List.append_assoc]
  have hfront : trimChars (joinLines g.2) = rtrim (joinLines g.2) := by
    rw [hjoin]
    exact trimChars_headercons p.1 _ g.1 hmatch
  rw [hfront, hjoin]
  cases hp2 : p.2 with
  | none =>
    have hpend : pending = [] := by
      cases pending with
      | nil => rfl
      | cons q qs =>
        rw [hg2] at htok
        have hh := termsOk_head p q qs htok
        rw [hp2] at hh
        simp at hh
    rw [hpend]
    have hz : (none : Option Char).toList ++ joinLines [] = [] := rfl
    rw [hz, List.append_nil]
    exact matchLine_rtrim_line p.1 g.1 hclean.1 hmatch
  | some ch =>
    have hterm : lineTerm ch = true := hclean.2 ch hp2
    have hz : (some ch).toList ++ joinLines pending = ch :: joinLines pending := rfl
    rw [hz, rtrim_append]
    by_cases hb : rtrim (ch :: joinLines pending) = []
    · rw [if_pos hb]
      exact matchLine_rtrim_line p.1 g.1 hclean.1 hmatch
    · rw [if_neg hb]
      cases hsh : rtrim (ch :: joinLines pending) with
      | nil => exact absurd hsh hb
      | cons c0 X =>
        have hc0 : c0 = ch := by
          have hpre := rtrim_isPrefix (ch :: joinLines pending)
          rw [hsh] at hpre
          exact (List.cons_prefix_cons.mp hpre).1
        subst hc0
        constructor
        · obtain ⟨rest0, hrest0, -⟩ := matchLine_decompose p.1 g.1 hmatch
          rw [hrest0, List.append_assoc]
          exact isPrefixOf_of_append _ _
        · have hfl : firstLine (p.1 ++ c0 :: X) = p.1 := by
            unfold firstLine
            rw [List.takeWhile_append_of_pos]
            · simp [List.takeWhile_cons, hterm]
            · rw [List.all_eq_true] at hclean
              exact fun a ha => hclean.1 a ha
          rw [hfl]
          exact hmatch

/-- C10, witness: the single segment of a minimal diff starts with its own
header line and its captured path equals the segment's filename. -/
theorem c10_segment_header_witness :
    segSimple ∈ parsePerFileDiffs dSimple ∧ segSimple.diffContent ≠ [] ∧
      (headerPrefix.isPrefixOf segSimple.diffContent = true ∧
        matchLine (firstLine segSimple.diffContent) = some segSimple.filename) :=
  ⟨by decide, by decide, c10_segment_header dSimple segSimple (by decide) (by decide)⟩

/-! ### Unfolding lemmas for the pagination loop -/

theorem fetchLoop_succ_noMore (t : Nat → Except Unit PullRequestPage)
    (p : FetchParams) (fuel : Nat) (s : FetchState)
    (hguard : (s.hasMoreComments || s.hasMoreReviews) = false) :
    fetchLoop t p (fuel + 1) s = .ok s := by
  simp [fetchLoop, hguard]

theorem fetchLoop_succ_error (t : Nat → Except Unit PullRequestPage)
    (p : FetchParams) (fuel : Nat) (s : FetchState)
    (hguard : (s.hasMoreComments || s.hasMoreReviews) = true)
    (herr : t s.pageCount = .error ()) :
    fetchLoop t p (fuel + 1) s = .error () := by
  simp [fetchLoop, hguard, herr]

theorem fetchLoop_succ_ok (t : Nat → Except Unit PullRequestPage)
    (p : FetchParams) (fuel : Nat) (s : FetchState) (page : PullRequestPage)
    (hguard : (s.hasMoreComments || s.hasMoreReviews) = true)
    (hresp : t s.pageCount = .ok page) :
    fetchLoop t p (fuel + 1) s =
      if (processPage p page s).hasMoreComments ||
          (processPage p page s).hasMoreReviews then
        fetchLoop t p fuel (processPage p page s)
      else .ok (processPage p page s) := by
  simp [fetchLoop, hguard, hresp]

/-! ### Claim C6 -/

theorem pageSurvivors_nobot (p : FetchParams) (page : PullRequestPage) :
    ∀ c ∈ pageSurvivors p page, c.user.type ≠ botType := by
  intro c hc
  unfold pageSurvivors at hc
  rw [List.mem_append] at hc
  rcases hc with hc | hc
  · rw [List.mem_map] at hc
    obtain ⟨n, hn, rfl⟩ := hc
    rw [List.mem_filter] at hn
    have hb := hn.2
    simp only [Bool.not_eq_true', beq_eq_false_iff_ne, ne_eq] at hb
    exact hb
  · rw [List.mem_flatten] at hc
    obtain ⟨lst, hlst, hcl⟩ := hc
    rw [List.mem_map] at hlst
    obtain ⟨r, hr, rfl⟩ := hlst
    rw [List.mem_map] at hcl
    obtain ⟨n, hn, rfl⟩ := hcl
    rw [List.mem_filter] at hn
    have hb := hn.2
    simp only [Bool.not_eq_true', beq_eq_false_iff_ne, ne_eq] at hb
    exact hb

theorem fetchLoop_nobot (t : Nat → Except Unit PullRequestPage) (p : FetchParams) :
    ∀ (fuel : Nat) (s s' : FetchState),
      (∀ c ∈ s.allComments, c.user.type ≠ botType) →
      fetchLoop t p fuel s = .ok s' →
      ∀ c ∈ s'.allComments, c.user.type ≠ botType := by
  intro fuel
  induction fuel with
  | zero =>
    intro s s' hs hok
    injection hok with h
    rw [←h]
    exact hs
  | succ fuel ih =>
    intro s s' hs hok
    cases hb : (s.hasMoreComments || s.hasMoreReviews) with
    | false =>
      rw [fetchLoop_succ_noMore t p fuel s hb] at hok
      injection hok with h
      rw [←h]
      exact hs
    | true =>
      cases ht : t s.pageCount with
      | error e =>
        cases e
        rw [fetchLoop_succ_error t p fuel s hb ht] at hok
        cases hok
      | ok page =>
        rw [fetchLoop_succ_ok t p fuel s page hb ht] at hok
        have hs1 : ∀ c ∈ (processPage p page s).allComments, c.user.type ≠ botType := by
          intro c hc
          have hrw : (processPage p page s).allComments =
              s.allComments ++ pageSurvivors p page := rfl
          rw [hrw, List.mem_append] at hc
          rcases hc with h1 | h1
          · exact hs c h1
          · exact pageSurvivors_nobot p page c h1
        by_cases hdone : ((processPage p page s).hasMoreComments ||
            (processPage p page s).hasMoreReviews) = true
        · rw [if_pos hdone] at hok
          exact ih _ s' hs1 hok
        · rw [if_neg hdone] at hok
          injection hok with h
          rw [←h]
          exact hs1

/-- C6: no comment returned by `fetchPullRequestComments` is authored by a
`"Bot"`, for any sequence of transport responses — both top-level comment
nodes and review-nested comment nodes are filtered. -/
theorem c6_no_bot_comments (t : Nat → Except Unit PullRequestPage)
    (p : FetchParams) (c : SimplifiedComment)
    (hc : c ∈ (fetchPullRequestComments t p).comments) :
    c.user.type ≠ botType := by
  unfold fetchPullRequestComments at hc
  cases hloop : fetchLoop t p MAX_PAGES initialFetchState with
  | ok s =>
    rw [hloop] at hc
    refine fetchLoop_nobot t p MAX_PAGES initialFetchState s ?_ hloop c hc
    intro c' hc'
    simp [initialFetchState] at hc'
  | error e =>
    rw [hloop] at hc
    simp at hc

/-- C6, witness: a concrete run whose output contains a surviving
human-authored comment. -/
theorem c6_no_bot_comments_witness :
    simplify pDemo userComment ∈
        (fetchPullRequestComments (pureT tOnce) pDemo).comments ∧
      (simplify pDemo userComment).user.type ≠ botType :=
  ⟨by decide, c6_no_bot_comments (pureT tOnce) pDemo (simplify pDemo userComment)
    (by decide)⟩

/-! ### Claim C7 -/

theorem fetchLoop_pure_ok (t : Nat → PullRequestPage) (p : FetchParams) :
    ∀ (fuel : Nat) (s : FetchState), ∃ s',
      fetchLoop (pureT t) p fuel s = .ok s' ∧
        s'.pageCount ≤ s.pageCount + fuel := by
  intro fuel
  induction fuel with
  | zero => intro s; exact ⟨s, rfl, Nat.le_refl _⟩
  | succ fuel ih =>
    intro s
    cases hb : (s.hasMoreComments || s.hasMoreReviews) with
    | false =>
      rw [fetchLoop_succ_noMore (pureT t) p fuel s hb]
      exact ⟨s, rfl, Nat.le_add_right _ _⟩
    | true =>
      rw [fetchLoop_succ_ok (pureT t) p fuel s (t s.pageCount) hb rfl]
      have hpc : (processPage p (t s.pageCount) s).pageCount = s.pageCount + 1 := rfl
      by_cases hdone : ((processPage p (t s.pageCount) s).hasMoreComments ||
          (processPage p (t s.pageCount) s).hasMoreReviews) = true
      · rw [if_pos hdone]
        obtain ⟨s', h1, h2⟩ := ih (processPage p (t s.pageCount) s)
        exact ⟨s', h1, by omega⟩
      · rw [if_neg hdone]
        exact ⟨_, rfl, by omega⟩

/-- C7: for every transport that never throws — including one that always
reports a further page on both collections — the loop issues at most
`MAX_PAGES = 100` queries (`pageCount` counts one per query), never fails,
and the caller receives exactly the accumulated comments and linked
issues. -/
theorem c7_page_ceiling (t : Nat → PullRequestPage) (p : FetchParams) :
    ∃ s, fetchLoop (pureT t) p MAX_PAGES initialFetchState = .ok s ∧
      s.pageCount ≤ MAX_PAGES ∧
      fetchPullRequestComments (pureT t) p = ⟨s.allComments, s.linkedIssues⟩ := by
  obtain ⟨s, h1, h2⟩ := fetchLoop_pure_ok t p MAX_PAGES initialFetchState
  refine ⟨s, h1, ?_, ?_⟩
  · have h0 : initialFetchState.pageCount = 0 := rfl
    omega
  · unfold fetchPullRequestComments
    rw [h1]

/-! ### Claim C8 -/

/-- C8, counterexample: a first page that reports `hasNextPage: true` while
returning `null` end cursors (allowed by the response type) makes the second
iteration see two falsy stored cursors, so the closing-issue references are
appended a second time: the result is not the first page's collection
captured once. -/
theorem c8_counterexample :
    (fetchPullRequestComments (pureT tBadCursors) pDemo).linkedIssues ≠
      ((tBadCursors 0).closingIssuesReferences).map convertIssue := by
  decide

theorem fetchLoop_linked_frozen (t : Nat → PullRequestPage) (p : FetchParams)
    (hgood : ∀ n, cursorFalsy (t n).commentsPageInfo.endCursor = false) :
    ∀ (fuel : Nat) (s s' : FetchState),
      cursorFalsy s.commentsEndCursor = false →
      fetchLoop (pureT t) p fuel s = .ok s' →
      s'.linkedIssues = s.linkedIssues := by
  intro fuel
  induction fuel with
  | zero =>
    intro s s' _ hok
    injection hok with h
    rw [←h]
  | succ fuel ih =>
    intro s s' hfc hok
    cases hb : (s.hasMoreComments || s.hasMoreReviews) with
    | false =>
      rw [fetchLoop_succ_noMore (pureT t) p fuel s hb] at hok
      injection hok with h
      rw [←h]
    | true =>
      rw [fetchLoop_succ_ok (pureT t) p fuel s (t s.pageCount) hb rfl] at hok
      have hlinked : (processPage p (t s.pageCount) s).linkedIssues =
          s.linkedIssues := by
        unfold processPage
        simp [hfc]
      have hfc1 : cursorFalsy (processPage p (t s.pageCount) s).commentsEndCursor
          = false := by
        have hrw : (processPage p (t s.pageCount) s).commentsEndCursor =
            (t s.pageCount).commentsPageInfo.endCursor := rfl
        rw [hrw]
        exact hgood s.pageCount
      by_cases hdone : ((processPage p (t s.pageCount) s).hasMoreComments ||
          (processPage p (t s.pageCount) s).hasMoreReviews) = true
      · rw [if_pos hdone] at hok
        rw [ih _ s' hfc1 hok, hlinked]
      · rw [if_neg hdone] at hok
        injection hok with h
        rw [←h, hlinked]

/-- C8, amended: the capture condition is cursor falsiness (`null` or empty
string), not "first iteration".  The first iteration always captures (both
stored cursors start as `null`); a later iteration appends again exactly
when the previous response left both stored cursors falsy.  In particular,
whenever the upstream always returns a non-falsy comments cursor, the
linked-issue list is exactly the first page's collection, captured once. -/
theorem c8_amended (t : Nat → PullRequestPage) (p : FetchParams)
    (hgood : ∀ n, cursorFalsy (t n).commentsPageInfo.endCursor = false) :
    (fetchPullRequestComments (pureT t) p).linkedIssues =
      ((t 0).closingIssuesReferences).map convertIssue := by
  have hguard : (initialFetchState.hasMoreComments ||
      initialFetchState.hasMoreReviews) = true := rfl
  have hstep := fetchLoop_succ_ok (pureT t) p 99 initialFetchState (t 0) hguard rfl
  have hlinked1 : (processPage p (t 0) initialFetchState).linkedIssues =
      ((t 0).closingIssuesReferences).map convertIssue := rfl
  have hfc1 : cursorFalsy (processPage p (t 0) initialFetchState).commentsEndCursor
      = false := hgood 0
  unfold fetchPullRequestComments
  rw [show MAX_PAGES = 99 + 1 from rfl, hstep]
  by_cases hdone : ((processPage p (t 0) initialFetchState).hasMoreComments ||
      (processPage p (t 0) initialFetchState).hasMoreReviews) = true
  · rw [if_pos hdone]
    cases hloop : fetchLoop (pureT t) p 99 (processPage p (t 0) initialFetchState) with
    | ok s' =>
      have hfroz := fetchLoop_linked_frozen t p hgood 99
        (processPage p (t 0) initialFetchState) s' hfc1 hloop
      simp only
      rw [hfroz, hlinked1]
    | error e =>
      obtain ⟨s'', h1, -⟩ := fetchLoop_pure_ok t p 99
        (processPage p (t 0) initialFetchState)
      rw [h1] at hloop
      cases hloop
  · rw [if_neg hdone]
    simp only
    exact hlinked1

/-- C8, witness for the amended claim: with well-formed cursors the
linked-issue list is the first page's collection. -/
theorem c8_amended_witness :
    (∀ n, cursorFalsy ((tGoodCursors n).commentsPageInfo.endCursor) = false) ∧
      (fetchPullRequestComments (pureT tGoodCursors) pDemo).linkedIssues =
        ((tGoodCursors 0).closingIssuesReferences).map convertIssue :=
  ⟨fun _ => rfl, c8_amended tGoodCursors pDemo (fun _ => rfl)⟩

/-! ### Claim C9 -/

/-- C9: a transport exception (on the first iteration, or surfacing from any
iteration of the loop) is caught: the caller receives empty comment and
linked-issue lists and no exception propagates. -/
theorem c9_error_recovery (t : Nat → Except Unit PullRequestPage)
    (p : FetchParams) :
    (fetchLoop t p MAX_PAGES initialFetchState = .error () →
        fetchPullRequestComments t p = ⟨[], []⟩) ∧
      (t 0 = .error () → fetchPullRequestComments t p = ⟨[], []⟩) := by
  constructor
  · intro h
    unfold fetchPullRequestComments
    rw [h]
  · intro h
    have hguard : (initialFetchState.hasMoreComments ||
        initialFetchState.hasMoreReviews) = true := rfl
    have hstep : fetchLoop t p MAX_PAGES initialFetchState = .error () := by
      rw [show MAX_PAGES = 99 + 1 from rfl]
      exact fetchLoop_succ_error t p 99 initialFetchState hguard h
    unfold fetchPullRequestComments
    rw [hstep]

/-- C9, witness: an always-throwing transport yields the empty result. -/
theorem c9_error_recovery_witness :
    tThrow 0 = .error () ∧ fetchPullRequestComments tThrow pDemo = ⟨[], []⟩ :=
  ⟨rfl, (c9_error_recovery tThrow pDemo).2 rfl⟩

end AskPlugin
